import Mathlib

/-!
Shallow embedding of the algorithmic cores of the repository's three demos:
the tabular Q-Learning grid world (q_l_rl/src/main.rs), the PSO optimizer
(pso_visualization/src/main.rs) and the steering behaviors
(steering_ai/bevy_steering_ai/src/main.rs).  `f32`/`f64` arithmetic is
modelled over `ℚ` where the source only adds, multiplies and compares
(Q-Learning) and over `ℝ` where Euclidean lengths appear (PSO, steering);
`f32::INFINITY` is modelled as `⊤` in `WithTop ℝ`.  Rendering, windowing and
input glue is out of scope, as in the specification.
-/

namespace QL

/-- Grid cell kinds, from `enum Cell` in q_l_rl/src/main.rs. -/
inductive Cell
  | Empty
  | Start
  | Goal
  | Wall
  | T1
  | T2
  | T3
deriving DecidableEq

/-- The four movement actions, from `enum Action` in q_l_rl/src/main.rs. -/
inductive Action
  | Up
  | Down
  | Left
  | Right
deriving DecidableEq

/-- `Action::all()`: the enumeration order Up, Down, Left, Right. -/
def Action.all : List Action := [Action.Up, Action.Down, Action.Left, Action.Right]

/-- Position of an action in the `Action::all()` enumeration order. -/
def actionIdx : Action → ℕ
  | Action.Up => 0
  | Action.Down => 1
  | Action.Left => 2
  | Action.Right => 3

/-- Grid coordinates, from `struct State { x: usize, y: usize }`. -/
structure State where
  x : ℕ
  y : ℕ
deriving DecidableEq

/-- `const MAP_SIZE: usize = 10` in q_l_rl/src/main.rs. -/
def MAP_SIZE : ℕ := 10

/-- `const MAX_HP: i32 = 100` in q_l_rl/src/main.rs. -/
def MAX_HP : ℤ := 100

/-- The grid environment from `struct Environment`.  The fixed
`[[Cell; MAP_SIZE]; MAP_SIZE]` array is modelled as a total function from
(row, column) to cell; the source only indexes it as `map[y][x]` with both
coordinates below `MAP_SIZE`. -/
structure Environment where
  map : ℕ → ℕ → Cell
  start : State
  goal : State

/-- `Environment::get_hp_damage`: damage by trap tier of the cell at `s`. -/
def Environment.getHpDamage (env : Environment) (s : State) : ℤ :=
  match env.map s.y s.x with
  | Cell.T1 => 25
  | Cell.T2 => 50
  | Cell.T3 => 100
  | _ => 0

/-- `Environment::get_reward` (the `_hp_damage` argument is unused in the
source as well). -/
def Environment.getReward (env : Environment) (s : State) (_hpDamage : ℤ) : ℚ :=
  match env.map s.y s.x with
  | Cell.Goal => 100
  | Cell.Wall => -10
  | Cell.T1 => -25
  | Cell.T2 => -50
  | Cell.T3 => -100
  | _ => -1

/-- `Environment::is_terminal`: on the goal cell or out of health. -/
def Environment.isTerminal (env : Environment) (s : State) (hp : ℤ) : Bool :=
  decide (env.map s.y s.x = Cell.Goal) || decide (hp ≤ 0)

/-- The bounds-clamped unit move computed by the `match action` block at the
top of `Environment::step`. -/
def rawMove (s : State) (a : Action) : State :=
  match a with
  | Action.Up => if 0 < s.y then ⟨s.x, s.y - 1⟩ else s
  | Action.Down => if s.y < MAP_SIZE - 1 then ⟨s.x, s.y + 1⟩ else s
  | Action.Left => if 0 < s.x then ⟨s.x - 1, s.y⟩ else s
  | Action.Right => if s.x < MAP_SIZE - 1 then ⟨s.x + 1, s.y⟩ else s

/-- `Environment::step`: unit move clamped to the grid, reverted on a wall;
damage is read from the (possibly reverted) destination cell. -/
def Environment.step (env : Environment) (s : State) (a : Action) :
    State × ℤ × Bool :=
  let ns := rawMove s a
  let hitWall := env.map ns.y ns.x = Cell.Wall
  let ns' := if hitWall then s else ns
  (ns', env.getHpDamage ns', decide hitWall)

/-- Write one cell of the map (`map[y][x] = c`). -/
def setCell (m : ℕ → ℕ → Cell) (x y : ℕ) (c : Cell) : ℕ → ℕ → Cell :=
  fun j i => if j = y ∧ i = x then c else m j i

/-- One tile-scatter iteration of `Environment::new`: the cell is written
only when it is still `Empty`, otherwise the collision is silently skipped. -/
def placeIfEmpty (c : Cell) (m : ℕ → ℕ → Cell) (p : ℕ × ℕ) : ℕ → ℕ → Cell :=
  if m p.2 p.1 = Cell.Empty then setCell m p.1 p.2 c else m

/-- `Environment::new`, with the thread-local RNG draws made explicit: the
goal corner `(gx, gy)` is drawn from `7..MAP_SIZE` on each axis, and the
wall / trap scatter positions arrive as lists of drawn coordinates
(15 walls, 5 T1, 4 T2, 2 T3 in the source; the lists are kept arbitrary
since collisions are skipped anyway). -/
def Environment.new (gx gy : ℕ) (walls t1s t2s t3s : List (ℕ × ℕ)) :
    Environment :=
  let m0 : ℕ → ℕ → Cell := fun _ _ => Cell.Empty
  let m1 := setCell m0 0 0 Cell.Start
  let m2 := setCell m1 gx gy Cell.Goal
  let m3 := walls.foldl (placeIfEmpty Cell.Wall) m2
  let m4 := t1s.foldl (placeIfEmpty Cell.T1) m3
  let m5 := t2s.foldl (placeIfEmpty Cell.T2) m4
  let m6 := t3s.foldl (placeIfEmpty Cell.T3) m5
  { map := m6, start := ⟨0, 0⟩, goal := ⟨gx, gy⟩ }

/-- The Q-table `HashMap<(State, Action), f64>` modelled as its lookup
function: `get_q_value` returns the stored value or the `unwrap_or(&0.0)`
default, so an absent key and a stored `0` are indistinguishable, and
`insert` is a pointwise update. -/
abbrev QTable := State × Action → ℚ

/-- `actions[index]` in the exploration branch of `choose_action`. -/
def actionAt (i : Fin 4) : Action :=
  Action.all.get ⟨i.1, by simp only [Action.all, List.length_cons, List.length_nil]; exact i.2⟩

/-- The greedy scan of `choose_action` (also inlined verbatim in
`get_episode_path`): start from `actions[0]` and its value, then walk the
whole list replacing the best on a strictly greater value. -/
def greedyAction (q : QTable) (s : State) : Action :=
  (Action.all.foldl
    (fun best a => if q (s, a) > best.2 then (a, q (s, a)) else best)
    (Action.Up, q (s, Action.Up))).1

/-- `QLearningAgent::choose_action`, with the two thread-local RNG draws made
explicit: `r` is the `gen_range(0.0..1.0)` sample and `i` the uniform index
used only in the exploration branch. -/
def chooseAction (q : QTable) (s : State) (eps r : ℚ) (i : Fin 4) : Action :=
  if r < eps then actionAt i else greedyAction q s

/-- The bootstrap maximum of `QLearningAgent::update`: the source folds
`f64::max` from `NEG_INFINITY` over the four actions of `Action::all()`,
which equals this four-way maximum because the list is never empty. -/
def maxNextQ (q : QTable) (ns : State) : ℚ :=
  max (max (max (q (ns, Action.Up)) (q (ns, Action.Down))) (q (ns, Action.Left)))
    (q (ns, Action.Right))

/-- `QLearningAgent::update`: one-step temporal-difference update, bootstrap
term zero when `done`. -/
def qUpdate (lr dis : ℚ) (q : QTable) (s : State) (a : Action) (r : ℚ)
    (ns : State) (done : Bool) : QTable :=
  let currentQ := q (s, a)
  let maxNext : ℚ := if done then 0 else maxNextQ q ns
  let newQ := currentQ + lr * (r + dis * maxNext - currentQ)
  fun p => if p = (s, a) then newQ else q p

/-- The inner step loop of `QLearningAgent::train` (`for _step in 0..max_steps`),
returning the final table, the rewards passed to `update` in order, and the
RNG counter.  One `choose_action` call consumes one index `n` of the streams. -/
def runSteps (env : Environment) (lr dis eps : ℚ) (rv : ℕ → ℚ) (ri : ℕ → Fin 4) :
    ℕ → QTable → State → ℤ → ℕ → QTable × List ℚ × ℕ
  | 0, q, _, _, n => (q, [], n)
  | m + 1, q, s, hp, n =>
      let a := chooseAction q s eps (rv n) (ri n)
      let t := env.step s a
      let ns := t.1
      let dmg := t.2.1
      let hp' := hp - dmg
      let r := env.getReward ns dmg
      let done := env.isTerminal ns hp'
      let q' := qUpdate lr dis q s a r ns done
      if done then (q', [r], n + 1)
      else
        let rest := runSteps env lr dis eps rv ri m q' ns hp' (n + 1)
        (rest.1, r :: rest.2.1, rest.2.2)

/-- The episode loop of `QLearningAgent::train`: each episode restarts at
`env.start` with full health. -/
def runEpisodes (env : Environment) (lr dis eps : ℚ) (rv : ℕ → ℚ)
    (ri : ℕ → Fin 4) (maxSteps : ℕ) :
    ℕ → QTable → ℕ → QTable × List ℚ × ℕ
  | 0, q, n => (q, [], n)
  | e + 1, q, n =>
      let res := runSteps env lr dis eps rv ri maxSteps q env.start MAX_HP n
      let rest := runEpisodes env lr dis eps rv ri maxSteps e res.1 res.2.2
      (rest.1, res.2.1 ++ rest.2.1, rest.2.2)

/-- All rewards passed to `update` during `QLearningAgent::train`, starting
from the fresh `HashMap::new()` table (constant `0`). -/
def trainRewards (env : Environment) (lr dis eps : ℚ) (rv : ℕ → ℚ)
    (ri : ℕ → Fin 4) (episodes maxSteps : ℕ) : List ℚ :=
  (runEpisodes env lr dis eps rv ri maxSteps episodes (fun _ => 0) 0).2.1

/-- The rollout loop of `QLearningAgent::get_episode_path`.  The inline
epsilon-greedy block of the source is byte-for-byte the body of
`choose_action`, so it is modelled by the same `chooseAction`.  The safety
break `path.len() > 500` is a dependent `if` so that the bound is available
to the termination measure. -/
def goPath (env : Environment) (q : QTable) (eps : ℚ) (rv : ℕ → ℚ)
    (ri : ℕ → Fin 4) (path : List State) (s : State) (hp : ℤ) (n : ℕ) :
    List State :=
  if env.isTerminal s hp then path
  else
    let a := chooseAction q s eps (rv n) (ri n)
    let t := env.step s a
    let ns := t.1
    let hp' := hp - t.2.1
    let path' := path ++ [ns]
    if env.isTerminal ns hp' then path'
    else if h500 : 500 < path'.length then path'
    else goPath env q eps rv ri path' ns hp' (n + 1)
termination_by 501 - path.length
decreasing_by
  unfold path' at h500
  simp only [List.length_append, List.length_cons, List.length_nil] at h500 ⊢
  omega

/-- `QLearningAgent::get_episode_path`: seed the path with the start state
and run the rollout loop at full health. -/
def getEpisodePath (env : Environment) (q : QTable) (eps : ℚ) (rv : ℕ → ℚ)
    (ri : ℕ → Fin 4) : List State :=
  goPath env q eps rv ri [env.start] env.start MAX_HP 0

/-- The relation between consecutive rollout states: either unchanged (a
blocked or clamped move) or one unit along exactly one axis. -/
def adjOrEq (a b : State) : Prop :=
  a = b ∨ (a.x = b.x ∧ (b.y = a.y + 1 ∨ a.y = b.y + 1)) ∨
    (a.y = b.y ∧ (b.x = a.x + 1 ∨ a.x = b.x + 1))

/-- The trap-tier damage table in the claim's own words: 0 for non-trap
cells, 25 / 50 / 100 for the three trap tiers. -/
def tierDamage : Cell → ℤ
  | Cell.T1 => 25
  | Cell.T2 => 50
  | Cell.T3 => 100
  | _ => 0

/-- An all-empty map: the greedy all-zero rollout from the corner gets stuck. -/
def env0 : Environment :=
  { map := fun _ _ => Cell.Empty, start := ⟨0, 0⟩, goal := ⟨9, 9⟩ }

/-- A map that is goal everywhere: the rollout terminates immediately. -/
def envG : Environment :=
  { map := fun _ _ => Cell.Goal, start := ⟨0, 0⟩, goal := ⟨0, 0⟩ }

/-- A map with a single wall directly right of the start. -/
def envW : Environment :=
  { map := fun j i => if j = 0 ∧ i = 1 then Cell.Wall else Cell.Empty,
    start := ⟨0, 0⟩, goal := ⟨9, 9⟩ }

/-- The all-zero (fresh) Q-table. -/
def q0 : QTable := fun _ => 0

/-- A table whose strict maximum for every state is at `Right`. -/
def q5 : QTable := fun p => if p.2 = Action.Right then 1 else 0

/-- A constant-zero stream for the `gen_range(0.0..1.0)` samples. -/
def rv0 : ℕ → ℚ := fun _ => 0

/-- A constant stream for the uniform action-index samples. -/
def ri0 : ℕ → Fin 4 := fun _ => ⟨0, by norm_num⟩

end QL

namespace PSO

/-- `const DOMAIN: f32 = 30.0` in pso_visualization/src/main.rs. -/
noncomputable def DOMAIN : ℝ := 30

/-- Euclidean length of the difference of two 2D points, i.e.
`(a - b).length()` on `Vec2`. -/
noncomputable def dist2 (a b : ℝ × ℝ) : ℝ :=
  Real.sqrt ((a.1 - b.1) ^ 2 + (a.2 - b.2) ^ 2)

/-- `f32::clamp(self, lo, hi)`: below `lo` gives `lo`, above `hi` gives `hi`. -/
noncomputable def rclamp (x lo hi : ℝ) : ℝ :=
  if x < lo then lo else if hi < x then hi else x

/-- The per-axis clamp of the new position to `[-DOMAIN, DOMAIN]`. -/
noncomputable def clamp2 (p : ℝ × ℝ) : ℝ × ℝ :=
  (rclamp p.1 (-DOMAIN) DOMAIN, rclamp p.2 (-DOMAIN) DOMAIN)

/-- `struct Particle`.  `target_position` is the position the PSO equations
read and write; `position` is the smoothed visual copy lerped toward it by
the rendering system.  `pbest_val` starts from `f32::INFINITY`, modelled as
`⊤` in `WithTop ℝ`. -/
structure Particle where
  position : ℝ × ℝ
  target_position : ℝ × ℝ
  velocity : ℝ × ℝ
  pbest_pos : ℝ × ℝ
  pbest_val : WithTop ℝ

/-- `struct PsoState` together with the fields of `PsoParams` that the tick
reads (`w`, `c1`, `c2`, `generations`); the `paused` flag and keyboard logic
are presentation glue and out of scope. -/
structure PsoState where
  particles : List Particle
  gbest_pos : ℝ × ℝ
  gbest_val : WithTop ℝ
  current_gen : ℕ
  converged : Bool
  target : Option (ℝ × ℝ)
  w : ℝ
  c1 : ℝ
  c2 : ℝ
  generations : ℕ

/-- Phase 1 of `pso_tick`: one left-to-right pass over the particles that
updates each personal best and accumulates the fresh global best candidate,
initialized to `(f32::INFINITY, Vec2::ZERO)` by the caller. -/
noncomputable def phase1 (goal : ℝ × ℝ) :
    List Particle → WithTop ℝ → ℝ × ℝ → List Particle × WithTop ℝ × (ℝ × ℝ)
  | [], gbv, gbp => ([], gbv, gbp)
  | p :: ps, gbv, gbp =>
      let d : ℝ := dist2 p.target_position goal
      let p' : Particle :=
        if (d : WithTop ℝ) < p.pbest_val then
          { p with pbest_pos := p.target_position, pbest_val := (d : WithTop ℝ) }
        else p
      let gbv' : WithTop ℝ := if (d : WithTop ℝ) < gbv then (d : WithTop ℝ) else gbv
      let gbp' : ℝ × ℝ := if (d : WithTop ℝ) < gbv then p.target_position else gbp
      let rest := phase1 goal ps gbv' gbp'
      (p' :: rest.1, rest.2)

/-- Phase 2 of `pso_tick`: per particle, draw `(r1, r2)` from the stream,
update the velocity with the inertia / cognitive / social terms, and set the
new position to the per-axis clamp of `position + velocity`. -/
noncomputable def phase2 (w c1 c2 : ℝ) (gbp : ℝ × ℝ) (rng : ℕ → ℝ × ℝ) :
    ℕ → List Particle → List Particle
  | _, [] => []
  | i, p :: ps =>
      let r1 := (rng i).1
      let r2 := (rng i).2
      let v : ℝ × ℝ := w • p.velocity + (c1 * r1) • (p.pbest_pos - p.target_position)
        + (c2 * r2) • (gbp - p.target_position)
      let np : ℝ × ℝ := clamp2 (p.target_position + v)
      { p with velocity := v, target_position := np } ::
        phase2 w c1 c2 gbp rng (i + 1) ps

open Classical in
/-- One advancing `pso_tick`: a no-op without a target or when converged;
otherwise the two phases, the generation increment and the convergence check
`current_gen >= generations || gbest_val < 0.7`.  The keyboard/pause gating
that decides whether a frame advances at all is presentation glue. -/
noncomputable def psoTick (s : PsoState) (rng : ℕ → ℝ × ℝ) : PsoState :=
  match s.target with
  | none => s
  | some goal =>
    if s.converged then s
    else
      let r := phase1 goal s.particles ⊤ (0, 0)
      let gbv := r.2.1
      let gbp := r.2.2
      let ps' := phase2 s.w s.c1 s.c2 gbp rng 0 r.1
      let gen' := s.current_gen + 1
      let conv : Bool :=
        if s.generations ≤ gen' ∨ gbv < ((0.7 : ℝ) : WithTop ℝ) then true else false
      { s with particles := ps', gbest_val := gbv, gbest_pos := gbp,
               current_gen := gen', converged := conv }

/-- Iterate `psoTick` over a list of per-step random streams. -/
noncomputable def psoRun (s : PsoState) : List (ℕ → ℝ × ℝ) → PsoState
  | [] => s
  | r :: rs => psoRun (psoTick s r) rs

/-- The claim's words: the minimum of `personal_best_value` over all
particles (`⊤` for an empty swarm). -/
noncomputable def minPBest (l : List Particle) : WithTop ℝ :=
  (l.map Particle.pbest_val).foldr min ⊤

/-- The claim's words for the position invariant: both components lie in
`[-DOMAIN, DOMAIN]`. -/
def inDomain (p : ℝ × ℝ) : Prop :=
  -DOMAIN ≤ p.1 ∧ p.1 ≤ DOMAIN ∧ -DOMAIN ≤ p.2 ∧ p.2 ≤ DOMAIN

/-- A particle sitting at distance 5 from the origin whose recorded personal
best (distance 1, reached earlier) is strictly better than anything the
current population occupies. -/
noncomputable def P1 : Particle :=
  { position := (3, 4), target_position := (3, 4), velocity := (0, 0),
    pbest_pos := (0, 1), pbest_val := ((1 : ℝ) : WithTop ℝ) }

/-- A swarm state with a target set and not converged, holding `P1`. -/
noncomputable def S1 : PsoState :=
  { particles := [P1], gbest_pos := (0, 0), gbest_val := ⊤, current_gen := 0,
    converged := false, target := some (0, 0), w := 0.6, c1 := 1.8, c2 := 2.1,
    generations := 15 }

/-- An in-domain one-particle swarm used as a witness input. -/
noncomputable def S7 : PsoState :=
  { particles := [{ position := (0, 0), target_position := (0, 0),
                    velocity := (0, 0), pbest_pos := (0, 0), pbest_val := ⊤ }],
    gbest_pos := (0, 0), gbest_val := ⊤, current_gen := 0, converged := false,
    target := some (10, 10), w := 0.6, c1 := 1.8, c2 := 2.1, generations := 15 }

/-- The constant-zero random stream. -/
noncomputable def rng0 : ℕ → ℝ × ℝ := fun _ => (0, 0)

end PSO

namespace Steer

/-- `const DESIRED_SEPARATION: f32 = 2.0` in bevy_steering_ai/src/main.rs. -/
noncomputable def DESIRED_SEPARATION : ℝ := 2

/-- Bevy's `Vec3`, restricted to the fields the steering math uses. -/
structure V3 where
  x : ℝ
  y : ℝ
  z : ℝ

instance : Add V3 := ⟨fun a b => ⟨a.x + b.x, a.y + b.y, a.z + b.z⟩⟩
instance : Sub V3 := ⟨fun a b => ⟨a.x - b.x, a.y - b.y, a.z - b.z⟩⟩
instance : SMul ℝ V3 := ⟨fun c v => ⟨c * v.x, c * v.y, c * v.z⟩⟩

/-- `Vec3::length_squared`. -/
def lengthSq (v : V3) : ℝ := v.x ^ 2 + v.y ^ 2 + v.z ^ 2

/-- `Vec3::length`. -/
noncomputable def len (v : V3) : ℝ := Real.sqrt (lengthSq v)

/-- `Vec3::distance` between two points. -/
noncomputable def dist3 (a b : V3) : ℝ := len (a - b)

/-- `Vec3::normalize_or_zero`: zero for an unnormalizable vector. -/
noncomputable def normalizeOrZero (v : V3) : V3 :=
  if len v = 0 then ⟨0, 0, 0⟩ else (1 / len v) • v

/-- `Vec3::clamp_length_max`: rescale to length `m` when the squared length
exceeds `m * m`, else unchanged. -/
noncomputable def clampLengthMax (v : V3) (m : ℝ) : V3 :=
  if m * m < lengthSq v then (m / Real.sqrt (lengthSq v)) • v else v

/-- The per-agent body of `movement_system`: clamp the accumulated velocity
to `max_speed`, integrate the position by `velocity * dt`, lock `y` to 0.5.
(The look-at rotation only touches the orientation, not position/velocity.) -/
noncomputable def movementIntegrate (pos vel : V3) (maxSpeed dt : ℝ) : V3 × V3 :=
  let v' := clampLengthMax vel maxSpeed
  let p' := pos + dt • v'
  (⟨p'.x, 0.5, p'.z⟩, v')

/-- The per-pair body of `separation_system`: when the two agents are
strictly closer than `DESIRED_SEPARATION` (and not coincident), add the
inverse-distance repulsion to the first velocity and subtract it from the
second, each scaled by that agent's own `max_force`. -/
noncomputable def separationPair (t1 t2 v1 v2 : V3) (f1 f2 : ℝ) : V3 × V3 :=
  let d := dist3 t1 t2
  if 0 < d ∧ d < DESIRED_SEPARATION then
    let force := (1 / d) • normalizeOrZero (t1 - t2)
    (v1 + f1 • force, v2 - f2 • force)
  else (v1, v2)

end Steer

namespace QL

/-- `get_hp_damage` agrees with the claim's trap-tier damage table at every
cell. -/
theorem getHpDamage_eq_tierDamage (env : Environment) (st : State) :
    env.getHpDamage st = tierDamage (env.map st.y st.x) := by
  cases h : env.map st.y st.x <;> simp [Environment.getHpDamage, tierDamage, h]

/-- C2: for every Q-table, state, action, reward and next state, `update`
with `done = true` ignores the next-state values entirely: the new entry is
exactly `old_q + learning_rate * (reward - old_q)`. -/
theorem update_done_ignores_next (lr dis : ℚ) (q : QTable) (s : State)
    (a : Action) (r : ℚ) (ns : State) :
    qUpdate lr dis q s a r ns true (s, a) = q (s, a) + lr * (r - q (s, a)) := by
  simp only [qUpdate, if_true, if_pos rfl]
  ring

/-- C3: a unit move landing on a wall is reverted with `wall_hit = true`,
and the returned damage is the trap-tier damage of the cell at the returned
next state. -/
theorem step_wall_revert_and_damage (env : Environment) (s : State) (a : Action)
    (_hx : s.x < MAP_SIZE) (_hy : s.y < MAP_SIZE) :
    (env.map (rawMove s a).y (rawMove s a).x = Cell.Wall →
        (env.step s a).1 = s ∧ (env.step s a).2.2 = true) ∧
    (env.step s a).2.1 =
      tierDamage (env.map (env.step s a).1.y (env.step s a).1.x) := by
  constructor
  · intro hw
    simp [Environment.step, hw]
  · have h2 : (env.step s a).2.1 = env.getHpDamage (env.step s a).1 := rfl
    rw [h2, getHpDamage_eq_tierDamage]

theorem step_wall_revert_and_damage_witness :
    (0 < MAP_SIZE) ∧
    ((envW.map (rawMove ⟨0, 0⟩ Action.Right).y (rawMove ⟨0, 0⟩ Action.Right).x
        = Cell.Wall →
      (envW.step ⟨0, 0⟩ Action.Right).1 = ⟨0, 0⟩ ∧
      (envW.step ⟨0, 0⟩ Action.Right).2.2 = true) ∧
    (envW.step ⟨0, 0⟩ Action.Right).2.1 =
      tierDamage (envW.map (envW.step ⟨0, 0⟩ Action.Right).1.y
        (envW.step ⟨0, 0⟩ Action.Right).1.x)) :=
  ⟨by norm_num [MAP_SIZE],
    step_wall_revert_and_damage envW ⟨0, 0⟩ Action.Right
      (by norm_num [MAP_SIZE]) (by norm_num [MAP_SIZE])⟩

/-- C5: with `epsilon = 0` (and the `[0,1)` sample nonnegative),
`choose_action` returns the action of maximal table value, breaking ties by
the first-enumerated order Up, Down, Left, Right; in particular a strict
maximum at `Right` forces `Right`. -/
theorem choose_action_eps_zero_greedy (q : QTable) (s : State) (r : ℚ)
    (i : Fin 4) (hr : 0 ≤ r) :
    (∀ b, q (s, b) ≤ q (s, chooseAction q s 0 r i)) ∧
    (∀ b, q (s, b) = q (s, chooseAction q s 0 r i) →
      actionIdx (chooseAction q s 0 r i) ≤ actionIdx b) ∧
    ((∀ b, b ≠ Action.Right → q (s, b) < q (s, Action.Right)) →
      chooseAction q s 0 r i = Action.Right) := by
  have hch : chooseAction q s 0 r i = greedyAction q s := by
    unfold chooseAction
    rw [if_neg (not_lt.mpr hr)]
  rw [hch]
  by_cases h2 : q (s, Action.Up) < q (s, Action.Down)
  · by_cases h3 : q (s, Action.Down) < q (s, Action.Left)
    · by_cases h4 : q (s, Action.Left) < q (s, Action.Right)
      · have hg : greedyAction q s = Action.Right := by
          simp [greedyAction, Action.all, gt_iff_lt, lt_irrefl, h2, h3, h4]
        rw [hg]
        refine ⟨fun b => ?_, fun b hb => ?_, fun _ => rfl⟩
        · cases b <;> linarith
        · cases b <;> simp only [actionIdx] <;> first | omega | (exfalso; linarith)
      · have hg : greedyAction q s = Action.Left := by
          simp [greedyAction, Action.all, gt_iff_lt, lt_irrefl, h2, h3, h4]
        rw [hg]
        refine ⟨fun b => ?_, fun b hb => ?_,
          fun hs => absurd (hs Action.Left (by decide)) h4⟩
        · cases b <;> first | linarith | exact not_lt.mp h4
        · cases b <;> simp only [actionIdx] <;> first | omega | (exfalso; linarith)
    · by_cases h4 : q (s, Action.Down) < q (s, Action.Right)
      · have hg : greedyAction q s = Action.Right := by
          simp [greedyAction, Action.all, gt_iff_lt, lt_irrefl, h2, h3, h4]
        rw [hg]
        refine ⟨fun b => ?_, fun b hb => ?_, fun _ => rfl⟩
        · cases b <;> linarith [not_lt.mp h3]
        · cases b <;> simp only [actionIdx] <;>
            first | omega | (exfalso; linarith [not_lt.mp h3])
      · have hg : greedyAction q s = Action.Down := by
          simp [greedyAction, Action.all, gt_iff_lt, lt_irrefl, h2, h3, h4]
        rw [hg]
        refine ⟨fun b => ?_, fun b hb => ?_,
          fun hs => absurd (hs Action.Down (by decide)) h4⟩
        · cases b <;> first | linarith | exact not_lt.mp h3 | exact not_lt.mp h4
        · cases b <;> simp only [actionIdx] <;> first | omega | (exfalso; linarith)
  · by_cases h3 : q (s, Action.Up) < q (s, Action.Left)
    · by_cases h4 : q (s, Action.Left) < q (s, Action.Right)
      · have hg : greedyAction q s = Action.Right := by
          simp [greedyAction, Action.all, gt_iff_lt, lt_irrefl, h2, h3, h4]
        rw [hg]
        refine ⟨fun b => ?_, fun b hb => ?_, fun _ => rfl⟩
        · cases b <;> linarith [not_lt.mp h2]
        · cases b <;> simp only [actionIdx] <;>
            first | omega | (exfalso; linarith [not_lt.mp h2])
      · have hg : greedyAction q s = Action.Left := by
          simp [greedyAction, Action.all, gt_iff_lt, lt_irrefl, h2, h3, h4]
        rw [hg]
        refine ⟨fun b => ?_, fun b hb => ?_,
          fun hs => absurd (hs Action.Left (by decide)) h4⟩
        · cases b <;>
            first | linarith [not_lt.mp h2] | exact not_lt.mp h4 | linarith
        · cases b <;> simp only [actionIdx] <;>
            first | omega | (exfalso; linarith [not_lt.mp h2])
    · by_cases h4 : q (s, Action.Up) < q (s, Action.Right)
      · have hg : greedyAction q s = Action.Right := by
          simp [greedyAction, Action.all, gt_iff_lt, lt_irrefl, h2, h3, h4]
        rw [hg]
        refine ⟨fun b => ?_, fun b hb => ?_, fun _ => rfl⟩
        · cases b <;> linarith [not_lt.mp h2, not_lt.mp h3]
        · cases b <;> simp only [actionIdx] <;>
            first | omega | (exfalso; linarith [not_lt.mp h2, not_lt.mp h3])
      · have hg : greedyAction q s = Action.Up := by
          simp [greedyAction, Action.all, gt_iff_lt, lt_irrefl, h2, h3, h4]
        rw [hg]
        refine ⟨fun b => ?_, fun b hb => ?_,
          fun hs => absurd (hs Action.Up (by decide)) h4⟩
        · cases b <;>
            first
            | linarith
            | exact not_lt.mp h2
            | exact not_lt.mp h3
            | exact not_lt.mp h4
        · cases b <;> simp only [actionIdx] <;> omega

theorem choose_action_eps_zero_greedy_witness :
    (0 : ℚ) ≤ 0 ∧ chooseAction q5 ⟨0, 0⟩ 0 0 (ri0 0) = Action.Right :=
  ⟨le_refl 0,
    (choose_action_eps_zero_greedy q5 ⟨0, 0⟩ 0 (ri0 0) (le_refl 0)).2.2
      (by intro b hb; cases b <;> simp_all [q5])⟩

end QL

namespace Steer

theorem add_def (a b : V3) : a + b = ⟨a.x + b.x, a.y + b.y, a.z + b.z⟩ := rfl

theorem sub_def (a b : V3) : a - b = ⟨a.x - b.x, a.y - b.y, a.z - b.z⟩ := rfl

theorem smul_def (c : ℝ) (v : V3) : c • v = ⟨c * v.x, c * v.y, c * v.z⟩ := rfl

theorem lengthSq_nonneg (v : V3) : 0 ≤ lengthSq v := by
  unfold lengthSq
  positivity

theorem lengthSq_smul (c : ℝ) (v : V3) : lengthSq (c • v) = c ^ 2 * lengthSq v := by
  simp only [smul_def, lengthSq]
  ring

/-- C6: after the clamp-and-integrate pass of `movement_system`, the agent's
velocity magnitude is at most its `max_speed`, for every pre-clamp velocity
(`max_speed` is nonnegative for every agent the program spawns). -/
theorem movement_velocity_bounded (pos vel : V3) (ms dt : ℝ) (hm : 0 ≤ ms) :
    len (movementIntegrate pos vel ms dt).2 ≤ ms := by
  have h2 : (movementIntegrate pos vel ms dt).2 = clampLengthMax vel ms := rfl
  rw [h2]
  unfold clampLengthMax
  split_ifs with h
  · have hpos : 0 < lengthSq vel := lt_of_le_of_lt (mul_self_nonneg ms) h
    have hLpos : 0 < Real.sqrt (lengthSq vel) := Real.sqrt_pos.mpr hpos
    have hsc : len ((ms / Real.sqrt (lengthSq vel)) • vel)
        = |ms / Real.sqrt (lengthSq vel)| * len vel := by
      unfold len
      rw [lengthSq_smul, Real.sqrt_mul (sq_nonneg _), Real.sqrt_sq_eq_abs]
    rw [hsc, abs_of_nonneg (div_nonneg hm hLpos.le)]
    unfold len
    rw [div_mul_cancel₀ ms hLpos.ne']
  · have hle : lengthSq vel ≤ ms ^ 2 := by nlinarith [not_lt.mp h]
    unfold len
    calc Real.sqrt (lengthSq vel) ≤ Real.sqrt (ms ^ 2) := Real.sqrt_le_sqrt hle
      _ = ms := Real.sqrt_sq hm

theorem movement_velocity_bounded_witness :
    (0 : ℝ) ≤ 10 ∧ len (movementIntegrate ⟨0, 0, 0⟩ ⟨3, 4, 0⟩ 10 1).2 ≤ 10 :=
  ⟨by norm_num, movement_velocity_bounded ⟨0, 0, 0⟩ ⟨3, 4, 0⟩ 10 1 (by norm_num)⟩

/-- C8: two agents exactly `DESIRED_SEPARATION` apart receive zero
separation force — the repulsion branch requires the distance to be
strictly positive and strictly below the threshold. -/
theorem separation_zero_at_boundary (t1 t2 v1 v2 : V3) (f1 f2 : ℝ)
    (hd : dist3 t1 t2 = DESIRED_SEPARATION) :
    separationPair t1 t2 v1 v2 f1 f2 = (v1, v2) := by
  unfold separationPair
  rw [hd]
  norm_num [DESIRED_SEPARATION]

theorem separation_zero_at_boundary_witness :
    dist3 ⟨2, 0, 0⟩ ⟨0, 0, 0⟩ = DESIRED_SEPARATION ∧
    separationPair ⟨2, 0, 0⟩ ⟨0, 0, 0⟩ ⟨1, 0, 0⟩ ⟨0, 1, 0⟩ 1 1
      = (⟨1, 0, 0⟩, ⟨0, 1, 0⟩) := by
  have hd : dist3 (⟨2, 0, 0⟩ : V3) ⟨0, 0, 0⟩ = DESIRED_SEPARATION := by
    unfold dist3 len DESIRED_SEPARATION
    rw [sub_def]
    norm_num [lengthSq]
    rw [show (4 : ℝ) = 2 ^ 2 by norm_num, Real.sqrt_sq (by norm_num : (0:ℝ) ≤ 2)]
  exact ⟨hd, separation_zero_at_boundary _ _ _ _ _ _ hd⟩

end Steer

namespace PSO

theorem ite_lt_eq_min (d g : WithTop ℝ) : (if d < g then d else g) = min d g := by
  by_cases h : d < g
  · rw [if_pos h, min_eq_left h.le]
  · rw [if_neg h, min_eq_right (not_lt.mp h)]

theorem foldr_min_min (a b : WithTop ℝ) (l : List (WithTop ℝ)) :
    l.foldr min (min a b) = min a (l.foldr min b) := by
  induction l with
  | nil => rfl
  | cons x xs ih => simp only [List.foldr_cons, ih, min_left_comm]

/-- The value component of the best-tracking pass is the running minimum of
the particle distances. -/
theorem phase1_val (goal : ℝ × ℝ) (l : List Particle) :
    ∀ (gbv : WithTop ℝ) (gbp : ℝ × ℝ),
      (phase1 goal l gbv gbp).2.1 =
        (l.map fun p => ((dist2 p.target_position goal : ℝ) : WithTop ℝ)).foldr
          min gbv := by
  induction l with
  | nil => intro gbv gbp; rfl
  | cons p ps ih =>
      intro gbv gbp
      simp only [phase1, List.map_cons, List.foldr_cons, ite_lt_eq_min]
      rw [ih]
      exact foldr_min_min _ gbv _

/-- C1 (amended): after one advancing PSO step from a state with a target
set and not converged, `gbest_val` equals the minimum over all particles of
the distance from the particle's (algorithmic) position to the target, the
distances being those of the positions the step started from. -/
theorem tick_gbest_is_min_dist (s : PsoState) (g : ℝ × ℝ) (rng : ℕ → ℝ × ℝ)
    (ht : s.target = some g) (hc : s.converged = false) :
    (psoTick s rng).gbest_val =
      (s.particles.map fun p =>
        ((dist2 p.target_position g : ℝ) : WithTop ℝ)).foldr min ⊤ := by
  unfold psoTick
  simp only [ht, hc, Bool.false_eq_true, if_false]
  exact phase1_val g s.particles ⊤ (0, 0)

theorem tick_gbest_is_min_dist_witness :
    S1.target = some (0, 0) ∧ S1.converged = false ∧
    (psoTick S1 rng0).gbest_val =
      (S1.particles.map fun p =>
        ((dist2 p.target_position (0, 0) : ℝ) : WithTop ℝ)).foldr min ⊤ :=
  ⟨rfl, rfl, tick_gbest_is_min_dist S1 (0, 0) rng0 rfl rfl⟩

theorem dist2_S1 : dist2 ((3 : ℝ), (4 : ℝ)) (0, 0) = 5 := by
  unfold dist2
  norm_num
  rw [show (25 : ℝ) = 5 ^ 2 by norm_num]
  exact Real.sqrt_sq (by norm_num)

/-- C1 as stated is false on the code: from the swarm state `S1` (target
set, not converged, one particle at distance 5 whose recorded personal best
is 1), one PSO step sets `gbest_val` to 5 while the minimum
`personal_best_value` stays 1 — the tick recomputes the global best from the
current distances only, it never compares against the stored personal
bests. -/
theorem tick_gbest_ne_min_pbest :
    (psoTick S1 rng0).gbest_val ≠ minPBest (psoTick S1 rng0).particles := by
  have h51 : ¬ (((5 : ℝ) : WithTop ℝ) < ((1 : ℝ) : WithTop ℝ)) := by
    rw [WithTop.coe_lt_coe]; norm_num
  have hL : (psoTick S1 rng0).gbest_val = ((5 : ℝ) : WithTop ℝ) := by
    unfold psoTick S1
    simp only [phase1, P1, dist2_S1, Bool.false_eq_true, if_false]
    rw [if_pos (WithTop.coe_lt_top 5)]
  have hR : minPBest (psoTick S1 rng0).particles = ((1 : ℝ) : WithTop ℝ) := by
    unfold psoTick S1
    simp only [phase1, phase2, P1, dist2_S1, Bool.false_eq_true, if_false, h51,
      minPBest, List.map_cons, List.map_nil, List.foldr_cons, List.foldr_nil]
    exact min_eq_left le_top
  rw [hL, hR]
  intro h
  have := WithTop.coe_eq_coe.mp h
  norm_num at this

theorem rclamp_mem (x lo hi : ℝ) (h : lo ≤ hi) :
    lo ≤ rclamp x lo hi ∧ rclamp x lo hi ≤ hi := by
  unfold rclamp
  split_ifs with h1 h2
  · exact ⟨le_refl lo, h⟩
  · exact ⟨h, le_refl hi⟩
  · exact ⟨not_lt.mp h1, not_lt.mp h2⟩

theorem clamp2_inDomain (p : ℝ × ℝ) : inDomain (clamp2 p) := by
  have h1 := rclamp_mem p.1 (-DOMAIN) DOMAIN (by norm_num [DOMAIN])
  have h2 := rclamp_mem p.2 (-DOMAIN) DOMAIN (by norm_num [DOMAIN])
  exact ⟨h1.1, h1.2, h2.1, h2.2⟩

theorem phase2_inDomain (w c1 c2 : ℝ) (gbp : ℝ × ℝ) (rng : ℕ → ℝ × ℝ)
    (l : List Particle) :
    ∀ (i : ℕ) (p : Particle),
      p ∈ phase2 w c1 c2 gbp rng i l → inDomain p.target_position := by
  induction l with
  | nil => intro i p hp; simp [phase2] at hp
  | cons a as ih =>
      intro i p hp
      simp only [phase2, List.mem_cons] at hp
      rcases hp with h | h
      · rw [h]
        exact clamp2_inDomain _
      · exact ih _ _ h

theorem tick_inDomain (s : PsoState) (rng : ℕ → ℝ × ℝ)
    (h : ∀ p ∈ s.particles, inDomain p.target_position) :
    ∀ p ∈ (psoTick s rng).particles, inDomain p.target_position := by
  unfold psoTick
  cases hT : s.target with
  | none => simpa using h
  | some g =>
      simp only [hT]
      by_cases hc : s.converged = true
      · simpa [hc] using h
      · simp only [hc, if_false]
        intro p hp
        exact phase2_inDomain _ _ _ _ _ _ _ p hp

/-- C7: if every particle position starts inside `[-DOMAIN, DOMAIN]^2`, then
after any number of PSO steps every particle position is still inside —
the per-axis clamp re-establishes the bound on every advancing step, and
no-op steps leave positions unchanged. -/
theorem run_inDomain (s : PsoState) (rngs : List (ℕ → ℝ × ℝ))
    (h : ∀ p ∈ s.particles, inDomain p.target_position) :
    ∀ p ∈ (psoRun s rngs).particles, inDomain p.target_position := by
  induction rngs generalizing s with
  | nil => simpa [psoRun] using h
  | cons r rs ih =>
      simp only [psoRun]
      exact ih _ (tick_inDomain s r h)

theorem run_inDomain_witness :
    (∀ p ∈ S7.particles, inDomain p.target_position) ∧
    ∀ p ∈ (psoRun S7 [rng0]).particles, inDomain p.target_position := by
  have h : ∀ p ∈ S7.particles, inDomain p.target_position := by
    intro p hp
    simp only [S7, List.mem_singleton] at hp
    rw [hp]
    norm_num [inDomain, DOMAIN]
  exact ⟨h, run_inDomain S7 [rng0] h⟩

end PSO

namespace QL

/-- The rollout loop grows the path by one state per iteration and stops no
later than the iteration that makes the path longer than 500. -/
theorem goPath_length_le (env : Environment) (q : QTable) (eps : ℚ)
    (rv : ℕ → ℚ) (ri : ℕ → Fin 4) :
    ∀ (m : ℕ) (path : List State) (s : State) (hp : ℤ) (n : ℕ),
      501 - path.length ≤ m → path.length ≤ 500 →
      (goPath env q eps rv ri path s hp n).length ≤ 501 := by
  intro m
  induction m with
  | zero =>
      intro path s hp n hm hlen
      omega
  | succ k ih =>
      intro path s hp n hm hlen
      rw [goPath]
      dsimp only
      split
      · omega
      · split
        · simp only [List.length_append, List.length_cons, List.length_nil]
          omega
        · split
          · simp only [List.length_append, List.length_cons, List.length_nil]
            omega
          · rename_i h3
            apply ih
            · simp only [List.length_append, List.length_cons, List.length_nil]
              omega
            · simp only [List.length_append, List.length_cons,
                List.length_nil] at h3
              simp only [List.length_append, List.length_cons, List.length_nil]
              omega

/-- C4 (amended): `get_episode_path` always terminates and its result holds
at most 501 states; reaching the cap truncates the sequence, it does not
raise an error. -/
theorem episode_path_length_le (env : Environment) (q : QTable) (eps : ℚ)
    (rv : ℕ → ℚ) (ri : ℕ → Fin 4) :
    (getEpisodePath env q eps rv ri).length ≤ 501 := by
  unfold getEpisodePath
  apply goPath_length_le env q eps rv ri 500
  · simp
  · simp

/-- On the all-empty map with the all-zero table, the greedy rollout keeps
choosing `Up` from the corner `(0,0)` (the move is clamped, nothing is ever
terminal), so each iteration pushes `(0,0)` again until the cap fires: the
final path length is exactly 501. -/
theorem goPath_env0_stuck :
    ∀ (m : ℕ) (path : List State) (n : ℕ),
      path.length + (m + 1) = 501 →
      (goPath env0 q0 0 rv0 ri0 path ⟨0, 0⟩ MAX_HP n).length = 501 := by
  have hch : ∀ n, chooseAction q0 ⟨0, 0⟩ 0 (rv0 n) (ri0 n) = Action.Up :=
    fun _ => rfl
  have hst : env0.step ⟨0, 0⟩ Action.Up = (⟨0, 0⟩, 0, false) := rfl
  have h1 : env0.isTerminal ⟨0, 0⟩ MAX_HP = false := rfl
  have h2 : env0.isTerminal ⟨0, 0⟩ (MAX_HP - 0) = false := rfl
  intro m
  induction m with
  | zero =>
      intro path n hlen
      rw [goPath]
      simp only [hch, hst, h1, h2, Bool.false_eq_true, if_false]
      rw [dif_pos (by simp only [List.length_append, List.length_cons,
        List.length_nil]; omega)]
      simp only [List.length_append, List.length_cons, List.length_nil]
      omega
  | succ k ih =>
      intro path n hlen
      rw [goPath]
      simp only [hch, hst, h1, h2, Bool.false_eq_true, if_false]
      rw [dif_neg (by simp only [List.length_append, List.length_cons,
        List.length_nil]; omega)]
      exact ih (path ++ [⟨0, 0⟩]) (n + 1)
        (by simp only [List.length_append, List.length_cons, List.length_nil]; omega)

/-- C4 as stated is false on the code: the stuck rollout on the all-empty
map returns 501 states, because the `path.len() > 500` cap is checked only
after the push of the current iteration. -/
theorem episode_path_501 : ¬ (getEpisodePath env0 q0 0 rv0 ri0).length ≤ 500 := by
  have h : (getEpisodePath env0 q0 0 rv0 ri0).length = 501 := by
    unfold getEpisodePath
    exact goPath_env0_stuck 499 [env0.start] 0 (by simp)
  omega

end QL

namespace QL

/-- The tile scatter never overwrites a non-empty cell. -/
theorem placeIfEmpty_preserve (c : Cell) (m : ℕ → ℕ → Cell) (p : ℕ × ℕ)
    (j i : ℕ) (h : m j i ≠ Cell.Empty) : placeIfEmpty c m p j i = m j i := by
  unfold placeIfEmpty
  split_ifs with hE
  · unfold setCell
    split_ifs with hji
    · exact absurd (by rw [hji.1, hji.2]; exact hE) h
    · rfl
  · rfl

/-- A whole scatter pass never overwrites a non-empty cell. -/
theorem foldl_placeIfEmpty_preserve (c : Cell) (l : List (ℕ × ℕ)) :
    ∀ (m : ℕ → ℕ → Cell) (j i : ℕ), m j i ≠ Cell.Empty →
      l.foldl (placeIfEmpty c) m j i = m j i := by
  induction l with
  | nil => intro m j i h; rfl
  | cons p ps ih =>
      intro m j i h
      simp only [List.foldl_cons]
      rw [ih (placeIfEmpty c m p) j i
        (by rw [placeIfEmpty_preserve c m p j i h]; exact h)]
      exact placeIfEmpty_preserve c m p j i h

/-- A scatter pass keeps a `Start` cell a `Start` cell. -/
theorem foldl_place_keep (c : Cell) (l : List (ℕ × ℕ)) (m : ℕ → ℕ → Cell)
    (j i : ℕ) (h : m j i = Cell.Start) :
    l.foldl (placeIfEmpty c) m j i = Cell.Start := by
  rw [foldl_placeIfEmpty_preserve c l m j i (by rw [h]; simp)]
  exact h

/-- In every environment built by `Environment::new`, the start corner keeps
its `Start` cell: the goal corner is drawn from `7..MAP_SIZE` so it cannot
overwrite `(0,0)`, and the scatter passes skip non-empty cells. -/
theorem new_start_cell (gx gy : ℕ) (walls t1s t2s t3s : List (ℕ × ℕ))
    (hgx : 7 ≤ gx) :
    (Environment.new gx gy walls t1s t2s t3s).map 0 0 = Cell.Start := by
  unfold Environment.new
  dsimp only
  apply foldl_place_keep
  apply foldl_place_keep
  apply foldl_place_keep
  apply foldl_place_keep
  unfold setCell
  rw [if_neg (by omega : ¬ ((0 : ℕ) = gy ∧ (0 : ℕ) = gx))]
  rw [if_pos ⟨rfl, rfl⟩]

/-- The state returned by `step` never sits on a wall cell, provided the
state it was called from does not. -/
theorem step_not_wall (env : Environment) (s : State) (a : Action)
    (h : env.map s.y s.x ≠ Cell.Wall) :
    env.map (env.step s a).1.y (env.step s a).1.x ≠ Cell.Wall := by
  unfold Environment.step
  dsimp only
  split_ifs with hw
  · exact h
  · exact hw

/-- `get_reward` returns the wall reward `-10` only on a wall cell. -/
theorem getReward_ne_wall (env : Environment) (st : State) (d : ℤ)
    (h : env.map st.y st.x ≠ Cell.Wall) : env.getReward st d ≠ -10 := by
  unfold Environment.getReward
  cases hc : env.map st.y st.x <;> simp [hc] at h ⊢ <;> norm_num

/-- Every reward produced by the inner training loop from a non-wall state
differs from the wall reward. -/
theorem runSteps_rewards_ne (env : Environment) (lr dis eps : ℚ) (rv : ℕ → ℚ)
    (ri : ℕ → Fin 4) :
    ∀ (m : ℕ) (q : QTable) (s : State) (hp : ℤ) (n : ℕ),
      env.map s.y s.x ≠ Cell.Wall →
      ∀ r ∈ (runSteps env lr dis eps rv ri m q s hp n).2.1, r ≠ -10 := by
  intro m
  induction m with
  | zero => intro q s hp n hs r hr; simp [runSteps] at hr
  | succ k ih =>
      intro q s hp n hs r hr
      rw [runSteps] at hr
      dsimp only at hr
      split at hr
      · simp only [List.mem_singleton] at hr
        rw [hr]
        exact getReward_ne_wall env _ _ (step_not_wall env s _ hs)
      · simp only [List.mem_cons] at hr
        rcases hr with h | h
        · rw [h]
          exact getReward_ne_wall env _ _ (step_not_wall env s _ hs)
        · exact ih _ _ _ _ (step_not_wall env s _ hs) r h

/-- Every reward produced across all training episodes differs from the wall
reward, provided the start cell is not a wall. -/
theorem runEpisodes_rewards_ne (env : Environment) (lr dis eps : ℚ)
    (rv : ℕ → ℚ) (ri : ℕ → Fin 4) (maxSteps : ℕ)
    (hstart : env.map env.start.y env.start.x ≠ Cell.Wall) :
    ∀ (e : ℕ) (q : QTable) (n : ℕ),
      ∀ r ∈ (runEpisodes env lr dis eps rv ri maxSteps e q n).2.1, r ≠ -10 := by
  intro e
  induction e with
  | zero => intro q n r hr; simp [runEpisodes] at hr
  | succ k ih =>
      intro q n r hr
      rw [runEpisodes] at hr
      dsimp only at hr
      rw [List.mem_append] at hr
      rcases hr with h | h
      · exact runSteps_rewards_ne env lr dis eps rv ri maxSteps q env.start
          MAX_HP n hstart r h
      · exact ih _ _ r h

/-- C9: on every environment built by `Environment::new` (goal corner drawn
from `7..MAP_SIZE` on both axes), no reward passed to `update` during
training is the wall reward `-10`: `step` reverts wall moves and clamps
boundary moves, so the post-move state is never a wall cell. -/
theorem train_never_wall_reward (gx gy : ℕ) (walls t1s t2s t3s : List (ℕ × ℕ))
    (lr dis eps : ℚ) (rv : ℕ → ℚ) (ri : ℕ → Fin 4) (episodes maxSteps : ℕ)
    (hgx : 7 ≤ gx) (_hgx10 : gx < 10) (_hgy : 7 ≤ gy) (_hgy10 : gy < 10) :
    ∀ r ∈ trainRewards (Environment.new gx gy walls t1s t2s t3s) lr dis eps
        rv ri episodes maxSteps, r ≠ -10 := by
  intro r hr
  have hs : (Environment.new gx gy walls t1s t2s t3s).map 0 0 = Cell.Start :=
    new_start_cell gx gy walls t1s t2s t3s hgx
  have hstart : (Environment.new gx gy walls t1s t2s t3s).map
      (Environment.new gx gy walls t1s t2s t3s).start.y
      (Environment.new gx gy walls t1s t2s t3s).start.x ≠ Cell.Wall := by
    rw [show (Environment.new gx gy walls t1s t2s t3s).start = (⟨0, 0⟩ : State)
      from rfl]
    rw [hs]
    simp
  unfold trainRewards at hr
  exact runEpisodes_rewards_ne (Environment.new gx gy walls t1s t2s t3s)
    lr dis eps rv ri maxSteps hstart episodes (fun _ => 0) 0 r hr

theorem train_never_wall_reward_witness :
    ((7 : ℕ) ≤ 7 ∧ (7 : ℕ) < 10) ∧
    ∀ r ∈ trainRewards (Environment.new 7 7 [] [] [] []) 0 0 0 rv0 ri0 1 1,
      r ≠ -10 :=
  ⟨⟨by norm_num, by norm_num⟩,
    train_never_wall_reward 7 7 [] [] [] [] 0 0 0 rv0 ri0 1 1
      (by norm_num) (by norm_num) (by norm_num) (by norm_num)⟩

end QL

namespace QL

/-- The clamped unit move keeps both coordinates below `MAP_SIZE`. -/
theorem rawMove_bounds (s : State) (a : Action) (hx : s.x < MAP_SIZE)
    (hy : s.y < MAP_SIZE) :
    (rawMove s a).x < MAP_SIZE ∧ (rawMove s a).y < MAP_SIZE := by
  simp only [MAP_SIZE] at hx hy ⊢
  cases a <;> unfold rawMove <;> simp only [MAP_SIZE] <;> split_ifs <;>
    constructor <;> dsimp only <;> omega

/-- `step` keeps both coordinates below `MAP_SIZE`. -/
theorem step_bounds (env : Environment) (s : State) (a : Action)
    (hx : s.x < MAP_SIZE) (hy : s.y < MAP_SIZE) :
    (env.step s a).1.x < MAP_SIZE ∧ (env.step s a).1.y < MAP_SIZE := by
  unfold Environment.step
  dsimp only
  split_ifs with hw
  · exact ⟨hx, hy⟩
  · exact rawMove_bounds s a hx hy

/-- The clamped unit move either stays put or moves one unit along one axis. -/
theorem rawMove_adj (s : State) (a : Action) : adjOrEq s (rawMove s a) := by
  cases a <;> unfold rawMove <;> split_ifs <;>
    first
    | exact Or.inl rfl
    | exact Or.inr (Or.inl ⟨rfl, by dsimp only; omega⟩)
    | exact Or.inr (Or.inr ⟨rfl, by dsimp only; omega⟩)

/-- `step` either stays put or moves one unit along one axis. -/
theorem step_adj (env : Environment) (s : State) (a : Action) :
    adjOrEq s (env.step s a).1 := by
  unfold Environment.step
  dsimp only
  split_ifs with hw
  · exact Or.inl rfl
  · exact rawMove_adj s a

/-- Appending a state adjacent to the last keeps the chain a chain. -/
theorem chain_append_one (l : List State) (s ns : State)
    (hlast : l.getLast? = some s) (hch : List.Chain' adjOrEq l)
    (hadj : adjOrEq s ns) : List.Chain' adjOrEq (l ++ [ns]) := by
  rw [List.chain'_append]
  refine ⟨hch, List.chain'_singleton ns, ?_⟩
  intro x hx y hy
  rw [hlast] at hx
  simp only [Option.mem_def, Option.some.injEq] at hx
  simp only [List.head?_cons, Option.mem_def, Option.some.injEq] at hy
  rw [← hx, ← hy]
  exact hadj

/-- The bundle of rollout invariants survives appending the step successor. -/
theorem append_inv (path : List State) (s ns : State)
    (hne : path ≠ []) (hlast : path.getLast? = some s)
    (hbnd : ∀ st ∈ path, st.x < MAP_SIZE ∧ st.y < MAP_SIZE)
    (hch : List.Chain' adjOrEq path) (hadj : adjOrEq s ns)
    (hnsx : ns.x < MAP_SIZE) (hnsy : ns.y < MAP_SIZE) :
    (path ++ [ns] ≠ [] ∧
     (path ++ [ns]).head? = path.head? ∧
     (∀ st ∈ path ++ [ns], st.x < MAP_SIZE ∧ st.y < MAP_SIZE) ∧
     List.Chain' adjOrEq (path ++ [ns]) ∧
     (path ++ [ns]).getLast? = some ns) := by
  refine ⟨by simp, List.head?_append_of_ne_nil path hne, ?_,
    chain_append_one path s ns hlast hch hadj, ?_⟩
  · intro st hst
    rw [List.mem_append] at hst
    rcases hst with h | h
    · exact hbnd st h
    · simp only [List.mem_singleton] at h
      rw [h]
      exact ⟨hnsx, hnsy⟩
  · rw [List.getLast?_append_of_ne_nil path (by simp)]
    rfl

/-- Invariants of the rollout loop: the accumulated path stays non-empty,
keeps its head, stays inside the grid, and stays a chain of unit-or-equal
moves, provided the seed path does. -/
theorem goPath_inv (env : Environment) (q : QTable) (eps : ℚ) (rv : ℕ → ℚ)
    (ri : ℕ → Fin 4) :
    ∀ (m : ℕ) (path : List State) (s : State) (hp : ℤ) (n : ℕ),
      501 - path.length ≤ m →
      path ≠ [] → path.getLast? = some s →
      (∀ st ∈ path, st.x < MAP_SIZE ∧ st.y < MAP_SIZE) →
      s.x < MAP_SIZE → s.y < MAP_SIZE →
      List.Chain' adjOrEq path →
      (goPath env q eps rv ri path s hp n ≠ [] ∧
       (goPath env q eps rv ri path s hp n).head? = path.head? ∧
       (∀ st ∈ goPath env q eps rv ri path s hp n,
          st.x < MAP_SIZE ∧ st.y < MAP_SIZE) ∧
       List.Chain' adjOrEq (goPath env q eps rv ri path s hp n)) := by
  intro m
  induction m with
  | zero =>
      intro path s hp n hm hne hlast hbnd hsx hsy hch
      rw [goPath]
      dsimp only
      split
      · exact ⟨hne, rfl, hbnd, hch⟩
      · have hstep := step_bounds env s (chooseAction q s eps (rv n) (ri n)) hsx hsy
        have happ := append_inv path s
          (env.step s (chooseAction q s eps (rv n) (ri n))).1 hne hlast hbnd hch
          (step_adj env s (chooseAction q s eps (rv n) (ri n))) hstep.1 hstep.2
        split
        · exact ⟨happ.1, happ.2.1, happ.2.2.1, happ.2.2.2.1⟩
        · split
          · exact ⟨happ.1, happ.2.1, happ.2.2.1, happ.2.2.2.1⟩
          · rename_i h3
            exfalso
            simp only [List.length_append, List.length_cons,
              List.length_nil] at h3
            omega
  | succ k ih =>
      intro path s hp n hm hne hlast hbnd hsx hsy hch
      rw [goPath]
      dsimp only
      split
      · exact ⟨hne, rfl, hbnd, hch⟩
      · have hstep := step_bounds env s (chooseAction q s eps (rv n) (ri n)) hsx hsy
        have happ := append_inv path s
          (env.step s (chooseAction q s eps (rv n) (ri n))).1 hne hlast hbnd hch
          (step_adj env s (chooseAction q s eps (rv n) (ri n))) hstep.1 hstep.2
        split
        · exact ⟨happ.1, happ.2.1, happ.2.2.1, happ.2.2.2.1⟩
        · split
          · exact ⟨happ.1, happ.2.1, happ.2.2.1, happ.2.2.2.1⟩
          · rename_i h3
            have hres := ih
              (path ++ [(env.step s (chooseAction q s eps (rv n) (ri n))).1])
              (env.step s (chooseAction q s eps (rv n) (ri n))).1
              (hp - (env.step s (chooseAction q s eps (rv n) (ri n))).2.1)
              (n + 1)
              (by
                simp only [List.length_append, List.length_cons,
                  List.length_nil] at h3 ⊢
                omega)
              happ.1 happ.2.2.2.2 happ.2.2.1 hstep.1 hstep.2 happ.2.2.2.1
            exact ⟨hres.1, by rw [hres.2.1, happ.2.1], hres.2.2.1, hres.2.2.2⟩

/-- C10: every path returned by `get_episode_path` (start state inside the
grid, as `Environment::new` guarantees) is non-empty, begins with the start
state, stays strictly inside the `MAP_SIZE` grid, and each consecutive pair
of states is identical or differs by one unit in exactly one coordinate. -/
theorem episode_path_shape (env : Environment) (q : QTable) (eps : ℚ)
    (rv : ℕ → ℚ) (ri : ℕ → Fin 4) (hx : env.start.x < MAP_SIZE)
    (hy : env.start.y < MAP_SIZE) :
    getEpisodePath env q eps rv ri ≠ [] ∧
    (getEpisodePath env q eps rv ri).head? = some env.start ∧
    (∀ st ∈ getEpisodePath env q eps rv ri,
      st.x < MAP_SIZE ∧ st.y < MAP_SIZE) ∧
    List.Chain' adjOrEq (getEpisodePath env q eps rv ri) := by
  unfold getEpisodePath
  have h := goPath_inv env q eps rv ri 500 [env.start] env.start MAX_HP 0
    (by simp) (by simp) rfl
    (by
      intro st hst
      simp only [List.mem_singleton] at hst
      rw [hst]
      exact ⟨hx, hy⟩)
    hx hy (List.chain'_singleton _)
  exact ⟨h.1, by rw [h.2.1]; rfl, h.2.2.1, h.2.2.2⟩

theorem episode_path_shape_witness :
    (envG.start.x < MAP_SIZE ∧ envG.start.y < MAP_SIZE) ∧
    (getEpisodePath envG q0 0 rv0 ri0 ≠ [] ∧
     (getEpisodePath envG q0 0 rv0 ri0).head? = some envG.start ∧
     (∀ st ∈ getEpisodePath envG q0 0 rv0 ri0,
        st.x < MAP_SIZE ∧ st.y < MAP_SIZE) ∧
     List.Chain' adjOrEq (getEpisodePath envG q0 0 rv0 ri0)) :=
  ⟨⟨by decide, by decide⟩,
    episode_path_shape envG q0 0 rv0 ri0 (by decide) (by decide)⟩

end QL
